import Mathlib

/-!
Verification of the P.U.R.E. Skies trash-collection engine.

This file gives a shallow embedding, in Lean 4, of the core algorithms of the
repository:

* the event-driven dispatcher `concurrency_simulation`
  (`src/new approach/simulation.py`, lines 4-75),
* the greedy route constructors `nearest_neighbor_path` and
  `build_path_with_capacity` (`src/test.py`, lines 23-91; the identical
  `RoutingManager.nearest_neighbor` / `capacity_split_path` live in
  `src/new.py`, lines 86-132),
* the per-frame kinematic agent model `Agent.update` / `Agent.move_along_route`
  with its `HumanAgent` and `DroneAgent` specializations
  (`src/new.py`, lines 194-307).

Points are pairs of real numbers and Euclidean distance is `Real.sqrt`, exactly
as the Python code uses `math.hypot`.  Python `for`-loops that scan for a
minimum are embedded by the generic first-minimum fold `py_min`, which mirrors
the semantics of Python's `min(..., key=...)` and of the explicit
`if d < closest_dist` scan loops: on ties the earliest candidate is kept.
-/

namespace PureSkies

open Classical

noncomputable section

/-- A 2-D point, as the coordinate pairs used throughout the Python sources. -/
abbrev Point : Type := ℝ × ℝ

/-- Euclidean distance between two points; `math.hypot(p1[0]-p2[0], p1[1]-p2[1])`
in `simulation.py` and `distance` in `test.py` / `new.py`. -/
def distance (p q : Point) : ℝ :=
  Real.sqrt ((p.1 - q.1) ^ 2 + (p.2 - q.2) ^ 2)

/-- Accumulator loop of a Python minimum scan: carries the best candidate and
its key so far, and replaces it only on a strictly smaller key, so the first
of several minimal candidates wins — exactly Python's `min` semantics and the
`if dist < closest_dist` loops of `simulation.py` and `visual_simulator.py`. -/
def py_min_go {α : Type} (key : α → ℝ) : Option (α × ℝ) → List α → Option (α × ℝ)
  | best, [] => best
  | best, x :: xs =>
    let d := key x
    match best with
    | none => py_min_go key (some (x, d)) xs
    | some (b, bd) =>
      if d < bd then py_min_go key (some (x, d)) xs
      else py_min_go key (some (b, bd)) xs

/-- Python's `min(l, key=key)` together with the minimal key, `none` on `[]`. -/
def py_min {α : Type} (key : α → ℝ) (l : List α) : Option (α × ℝ) :=
  py_min_go key none l

/-- Embeds `enumerate(l)` starting from index `i`, as used by the closest-trash scan
`for idx, trash_pos in enumerate(remaining)` in `simulation.py`. -/
def pyEnum {α : Type} : ℕ → List α → List (ℕ × α)
  | _, [] => []
  | i, x :: xs => (i, x) :: pyEnum (i + 1) xs

/-- Per-agent record of the dispatcher (`simulation.py`, lines 26-30):
position, time until the agent is free, and accumulated distance. -/
structure AgentRec where
  position : Point
  time_to_free : ℝ
  total_distance : ℝ

/-- Fetch `agents[i]`; the default is never reached on the guarded runs. -/
def getAgent (agents : List AgentRec) (i : ℕ) : AgentRec :=
  agents.getD i ⟨(0, 0), 0, 0⟩

/-- State of the dispatcher loop (`simulation.py`, lines 24-68).  The fields
`assigned` and `advances` are ghost instrumentation: they record, in order, the
trash positions popped from `remaining_trash` and the per-step minimum
`t_min` advances of the global clock; they influence nothing else. -/
structure SimState where
  agents : List AgentRec
  remaining : List Point
  time_passed : ℝ
  assigned : List Point
  advances : List ℝ

/-- Lines 54-59 of `simulation.py`: scan `enumerate(remaining)` for the trash
item of minimum Euclidean distance from `pos`, returning its index and
distance (first index on ties). -/
def closest_trash (pos : Point) (remaining : List Point) : Option (ℕ × ℝ) :=
  (py_min (fun ip => distance pos ip.2) (pyEnum 0 remaining)).map
    (fun r => (r.1.1, r.2))

/-- Line 41 of `simulation.py`: `min(range(num_agents), key=time_to_free)`,
the first agent index with minimal time-to-free. -/
def min_ttf_index (agents : List AgentRec) : ℕ :=
  match py_min (fun i => (getAgent agents i).time_to_free)
      (List.range agents.length) with
  | some (i, _) => i
  | none => 0

/-- One iteration of the dispatcher's `while remaining_trash` loop
(`simulation.py`, lines 39-68): pick the agent with minimal time-to-free,
advance the clock by that minimum, subtract it from every agent, zero the
chosen agent, assign it the closest remaining trash item, move it there, add
the leg distance, and set its time-to-free to the travel time. -/
def simStep (speed_m_s : ℝ) (st : SimState) : SimState :=
  match st.remaining with
  | [] => st
  | _ :: _ =>
    let i := min_ttf_index st.agents
    let t_min := (getAgent st.agents i).time_to_free
    let agents1 := st.agents.map
      (fun a => { a with time_to_free := a.time_to_free - t_min })
    let agents2 := agents1.set i
      { getAgent agents1 i with time_to_free := 0 }
    let current_pos := (getAgent agents2 i).position
    match closest_trash current_pos st.remaining with
    | none => st
    | some (j, d) =>
      let trash_pos := st.remaining.getD j (0, 0)
      let agents3 := agents2.set i
        { position := trash_pos
          time_to_free := d / speed_m_s
          total_distance := (getAgent agents2 i).total_distance + d }
      { agents := agents3
        remaining := st.remaining.eraseIdx j
        time_passed := st.time_passed + t_min
        assigned := st.assigned ++ [trash_pos]
        advances := st.advances ++ [t_min] }

/-- Fuelled form of the dispatcher's main loop; each iteration removes exactly
one trash item, so fuel `remaining.length` runs the loop to exhaustion. -/
def simLoopFuel (speed_m_s : ℝ) : ℕ → SimState → SimState
  | 0, st => st
  | fuel + 1, st =>
    match st.remaining with
    | [] => st
    | _ :: _ => simLoopFuel speed_m_s fuel (simStep speed_m_s st)

/-- The dispatcher's `while remaining_trash:` loop run to completion. -/
def simLoop (speed_m_s : ℝ) (st : SimState) : SimState :=
  simLoopFuel speed_m_s st.remaining.length st

/-- Embeds `max(ag["time_to_free"] for ag in agents)` (line 72); on the guarded runs
the list is non-empty and all entries are non-negative, so folding `max` with
base `0` agrees with Python's `max`. -/
def maxTTF (agents : List AgentRec) : ℝ :=
  (agents.map AgentRec.time_to_free).foldr max 0

/-- Embeds `sum(ag["total_distance"] for ag in agents)` (line 73). -/
def sumDist (agents : List AgentRec) : ℝ :=
  (agents.map AgentRec.total_distance).sum

/-- The initial fleet: `num_agents` agents at `(0, 0)` with zero time-to-free
and zero distance (lines 24-30). -/
def initState (num_agents : ℕ) (trash_locations : List Point) : SimState :=
  { agents := List.replicate num_agents ⟨(0, 0), 0, 0⟩
    remaining := trash_locations
    time_passed := 0
    assigned := []
    advances := [] }

/-- Embeds `concurrency_simulation(num_agents, speed_m_s, trash_locations)` from
`src/new approach/simulation.py`, lines 4-75, together with the value of the
caller's `trash_locations` after the call.  Line 33 copies the list
(`remaining_trash = trash_locations.copy()`) and the loop pops only from the
copy, so the caller's list is returned unchanged.  The first component is the
returned pair `(final_time_seconds, total_distance)`. -/
def concurrency_simulation_run (num_agents : ℕ) (speed_m_s : ℝ)
    (trash_locations : List Point) : (ℝ × ℝ) × List Point :=
  if num_agents = 0 ∨ speed_m_s ≤ 0 ∨ trash_locations = [] then
    ((0, 0), trash_locations)
  else
    let fin := simLoop speed_m_s (initState num_agents trash_locations)
    ((fin.time_passed + maxTTF fin.agents, sumDist fin.agents), trash_locations)

/-- The dispatcher's return value `(final_time_seconds, total_distance)`. -/
def concurrency_simulation (num_agents : ℕ) (speed_m_s : ℝ)
    (trash_locations : List Point) : ℝ × ℝ :=
  (concurrency_simulation_run num_agents speed_m_s trash_locations).1

/-- Embeds `min(remaining, key=lambda p: distance(current_pos, p))`: the nearest
remaining point from `pos`, as in `nearest_neighbor_path` and
`build_path_with_capacity` (`test.py`) and `RoutingManager` (`new.py`). -/
def minByDist (pos : Point) (remaining : List Point) : Option Point :=
  (py_min (distance pos) remaining).map (fun r => r.1)

/-- The visiting loop of `nearest_neighbor_path` (`test.py`, lines 34-38):
repeatedly append the nearest remaining point, remove it
(`remaining.remove(nearest)` removes the first occurrence of the value), and
continue from there.  Each iteration removes one point, so fuel
`remaining.length` runs the loop to exhaustion. -/
def nnGoFuel : ℕ → Point → List Point → List Point
  | 0, _, _ => []
  | fuel + 1, current, remaining =>
    match minByDist current remaining with
    | none => []
    | some nearest => nearest :: nnGoFuel fuel nearest (remaining.erase nearest)

/-- Embeds `nearest_neighbor_path(start, trash_points)` from `test.py`, lines 23-39
(identical to `RoutingManager.nearest_neighbor`, `new.py` lines 86-101). -/
def nearest_neighbor_path (start : Point) (trash_points : List Point) :
    List Point :=
  if trash_points = [] then [start]
  else start :: nnGoFuel trash_points.length start trash_points

/-- The chunk-collecting `for` loop of the limited-capacity case
(`test.py` lines 77-82, `new.py` lines 121-126): take up to `k` nearest
points greedily, returning the chunk, the leftover pool, and the final
position. -/
def chunkGo : ℕ → Point → List Point → List Point × List Point × Point
  | 0, current, remaining => ([], remaining, current)
  | k + 1, current, remaining =>
    match minByDist current remaining with
    | none => ([], remaining, current)
    | some nearest =>
      let r := chunkGo k nearest (remaining.erase nearest)
      (nearest :: r.1, r.2.1, r.2.2)

/-- The `while remaining:` loop of the limited-capacity case (`test.py`
lines 75-89): collect a chunk of `min(capacity, len(remaining))` points,
append it and a depot visit to the path, and restart from the depot.  Fuel
`remaining.length` suffices since each chunk removes at least one point
whenever `capacity ≥ 1`. -/
def buildLoopFuel : ℕ → Point → ℕ → Point → List Point → List Point
  | 0, _, _, _, _ => []
  | fuel + 1, bin_pos, capacity, current, remaining =>
    match remaining with
    | [] => []
    | _ :: _ =>
      let c := chunkGo (min capacity remaining.length) current remaining
      c.1 ++ [bin_pos] ++ buildLoopFuel fuel bin_pos capacity bin_pos c.2.1

/-- Embeds `build_path_with_capacity(bin_pos, trash_points, capacity)` from
`test.py`, lines 41-91.  `capacity < 1` is the unlimited case: one
nearest-neighbor sweep with a final return to the bin appended unless the
path already ends there. -/
def build_path_with_capacity (bin_pos : Point) (trash_points : List Point)
    (capacity : ℤ) : List Point :=
  if capacity < 1 then
    let base := nearest_neighbor_path bin_pos trash_points
    if base ≠ [] ∧ base.getLast? ≠ some bin_pos then base ++ [bin_pos] else base
  else
    bin_pos ::
      buildLoopFuel trash_points.length bin_pos capacity.toNat bin_pos
        trash_points

/-- Embeds `RoutingManager.capacity_split_path(start, points, capacity)` from
`new.py`, lines 103-132; its body is the same algorithm as
`build_path_with_capacity`, loop for loop. -/
def capacity_split_path (start : Point) (points : List Point)
    (capacity : ℤ) : List Point :=
  if capacity < 1 then
    let base := nearest_neighbor_path start points
    if base ≠ [] ∧ base.getLast? ≠ some start then base ++ [start] else base
  else
    start :: buildLoopFuel points.length start capacity.toNat start points

/-- Length of a polyline: the sum of the Euclidean legs between consecutive
waypoints.  Modelled from the spec: "the path length of the nearest-neighbor
walk" (§8, single-agent equivalence); the sources accumulate the same sum
leg by leg during playback. -/
def path_length : List Point → ℝ
  | [] => 0
  | [_] => 0
  | p :: q :: rest => distance p q + path_length (q :: rest)

/-- Kinematic agent state (`new.py`, `Agent.__init__`, lines 162-192).
`collected_positions` models the Python set as a list of its elements. -/
structure KAgent where
  route : List Point
  position_index : ℕ
  current_position : Point
  speed : ℝ
  acceleration : ℝ
  max_speed : ℝ
  pickup_time : ℝ
  pickup_timer : ℝ
  distance_traveled : ℝ
  total_time : ℝ
  capacity : ℤ
  collected_positions : List Point

/-- Embeds `Agent.move_along_route(dt)` from `new.py`, lines 208-244, paired with the
environment's `trash_positions` list which the method may mutate.  With
non-zero acceleration the speed is increased by `acceleration * dt` and capped
at `max_speed`; the agent then either snaps to the next waypoint (accumulating
the exact remaining distance, advancing the route index and, at a trash
waypoint, removing the item and starting the pickup timer) or moves a
proportional fraction of the way. -/
def move_along_route (a : KAgent) (trash_positions : List Point) (dt : ℝ) :
    KAgent × List Point :=
  if a.position_index ≥ a.route.length - 1 then (a, trash_positions)
  else
    let next_pos := a.route.getD (a.position_index + 1) a.current_position
    let dist := distance a.current_position next_pos
    let speed1 :=
      if a.acceleration ≠ 0 then min (a.speed + a.acceleration * dt) a.max_speed
      else a.speed
    let step_dist := speed1 * dt
    if step_dist ≥ dist then
      if next_pos ∈ trash_positions then
        ({ a with
            current_position := next_pos
            distance_traveled := a.distance_traveled + dist
            position_index := a.position_index + 1
            speed := speed1
            collected_positions := next_pos :: a.collected_positions
            pickup_timer := a.pickup_time },
          trash_positions.erase next_pos)
      else
        ({ a with
            current_position := next_pos
            distance_traveled := a.distance_traveled + dist
            position_index := a.position_index + 1
            speed := speed1 },
          trash_positions)
    else
      let ratio := step_dist / dist
      ({ a with
          current_position :=
            (a.current_position.1 + ratio * (next_pos.1 - a.current_position.1),
             a.current_position.2 + ratio * (next_pos.2 - a.current_position.2))
          distance_traveled := a.distance_traveled + step_dist
          speed := speed1 },
        trash_positions)

/-- Embeds `Agent.update(dt)` from `new.py`, lines 194-206: while the pickup timer is
positive only the timer decreases (clamped at zero); otherwise the agent moves
along its route; total time always advances. -/
def agent_update (a : KAgent) (trash_positions : List Point) (dt : ℝ) :
    KAgent × List Point :=
  if a.pickup_timer > 0 then
    let t1 := a.pickup_timer - dt
    ({ a with pickup_timer := if t1 < 0 then 0 else t1
              total_time := a.total_time + dt },
      trash_positions)
  else
    let r := move_along_route a trash_positions dt
    ({ r.1 with total_time := r.1.total_time + dt }, r.2)

/-- The constant `HumanAgent.fatigue_factor` (`new.py`, line 266). -/
def fatigue_factor : ℝ := 0.0005

/-- Embeds `HumanAgent.update(dt)` from `new.py`, lines 268-275: multiplicative speed
decay by `fatigue_factor` per second, a floor of `0.1`, then the base update. -/
def human_update (a : KAgent) (trash_positions : List Point) (dt : ℝ) :
    KAgent × List Point :=
  let s1 := if a.speed > 0 then a.speed - a.speed * fatigue_factor * dt
            else a.speed
  let s2 := if s1 < 0.1 then 0.1 else s1
  agent_update { a with speed := s2 } trash_positions dt

/-- Embeds `DroneAgent.update(dt)` from `new.py`, lines 304-307: accumulate energy
(`speed * energy_rate * dt` with `energy_rate = 1.0`) and run the base
update. -/
def drone_update (a : KAgent) (energy_consumed : ℝ)
    (trash_positions : List Point) (dt : ℝ) : KAgent × ℝ × List Point :=
  let r := agent_update a trash_positions dt
  (r.1, energy_consumed + a.speed * 1.0 * dt, r.2)

/-- Drive an agent through a sequence of update ticks with the given update
function, threading the environment's trash list. -/
def applyTicks (upd : KAgent → List Point → ℝ → KAgent × List Point)
    (a : KAgent) (trash_positions : List Point) :
    List ℝ → KAgent × List Point
  | [] => (a, trash_positions)
  | dt :: rest =>
    let r := upd a trash_positions dt
    applyTicks upd r.1 r.2 rest

/-- Drive a drone agent (KAgent state plus `energy_consumed`) through a
sequence of update ticks, as the visualizer's frame timer does. -/
def droneApplyTicks (a : KAgent) (energy_consumed : ℝ)
    (trash_positions : List Point) : List ℝ → KAgent × ℝ × List Point
  | [] => (a, energy_consumed, trash_positions)
  | dt :: rest =>
    let r := drone_update a energy_consumed trash_positions dt
    droneApplyTicks r.1 r.2.1 r.2.2 rest

/-! ### Basic facts about the dispatcher loop and the kinematic update -/

theorem simStep_clock (speed_m_s : ℝ) (st : SimState)
    (h : st.time_passed = st.advances.sum) :
    (simStep speed_m_s st).time_passed = (simStep speed_m_s st).advances.sum := by
  unfold simStep
  cases st.remaining with
  | nil => exact h
  | cons p ps =>
    simp only
    cases hc : closest_trash (getAgent ((st.agents.map
        (fun a => { a with time_to_free := a.time_to_free -
          (getAgent st.agents (min_ttf_index st.agents)).time_to_free })).set
            (min_ttf_index st.agents) _) (min_ttf_index st.agents)).position
        (p :: ps) with
    | none => exact h
    | some jd => simp [h]

theorem simLoopFuel_clock (speed_m_s : ℝ) :
    ∀ (fuel : ℕ) (st : SimState), st.time_passed = st.advances.sum →
      (simLoopFuel speed_m_s fuel st).time_passed =
        (simLoopFuel speed_m_s fuel st).advances.sum := by
  intro fuel
  induction fuel with
  | zero => intro st h; exact h
  | succ n ih =>
    intro st h
    unfold simLoopFuel
    cases hr : st.remaining with
    | nil => exact h
    | cons p ps =>
      have := simStep_clock speed_m_s st h
      exact ih _ this

theorem move_along_route_max_speed (a : KAgent) (t : List Point) (dt : ℝ) :
    (move_along_route a t dt).1.max_speed = a.max_speed := by
  simp only [move_along_route]
  split_ifs <;> rfl

theorem move_along_route_speed_le (a : KAgent) (t : List Point) (dt : ℝ)
    (h : a.speed ≤ a.max_speed) :
    (move_along_route a t dt).1.speed ≤ a.max_speed := by
  simp only [move_along_route]
  split_ifs <;> simp [h, min_le_right]

theorem agent_update_max_speed (a : KAgent) (t : List Point) (dt : ℝ) :
    (agent_update a t dt).1.max_speed = a.max_speed := by
  unfold agent_update
  split_ifs with h1
  · rfl
  · simpa using move_along_route_max_speed a t dt

theorem agent_update_speed_le (a : KAgent) (t : List Point) (dt : ℝ)
    (h : a.speed ≤ a.max_speed) :
    (agent_update a t dt).1.speed ≤ a.max_speed := by
  unfold agent_update
  split_ifs with h1
  · exact h
  · simpa using move_along_route_speed_le a t dt h

theorem human_update_speed_le (a : KAgent) (t : List Point) (dt : ℝ)
    (hdt : 0 ≤ dt) (h : a.speed ≤ a.max_speed) (hm : 0.1 ≤ a.max_speed) :
    (human_update a t dt).1.speed ≤ a.max_speed := by
  unfold human_update
  have hff : (0 : ℝ) ≤ fatigue_factor := by norm_num [fatigue_factor]
  have hs2 : (if (if a.speed > 0 then
      a.speed - a.speed * fatigue_factor * dt else a.speed) < 0.1 then (0.1 : ℝ)
      else if a.speed > 0 then a.speed - a.speed * fatigue_factor * dt
      else a.speed) ≤ a.max_speed := by
    split_ifs with h1 h2 h3 <;> try exact hm
    · have hpos : 0 ≤ a.speed * fatigue_factor * dt :=
        mul_nonneg (mul_nonneg h1.le hff) hdt
      linarith
    · exact h
  exact agent_update_speed_le _ t dt hs2

theorem human_update_max_speed (a : KAgent) (t : List Point) (dt : ℝ) :
    (human_update a t dt).1.max_speed = a.max_speed := by
  unfold human_update
  exact agent_update_max_speed _ t dt

theorem applyTicks_base_speed_le :
    ∀ (ticks : List ℝ) (a : KAgent) (t : List Point),
      a.speed ≤ a.max_speed →
      (applyTicks agent_update a t ticks).1.speed ≤ a.max_speed ∧
      (applyTicks agent_update a t ticks).1.max_speed = a.max_speed := by
  intro ticks
  induction ticks with
  | nil => intro a t h; exact ⟨h, rfl⟩
  | cons dt rest ih =>
    intro a t h
    have h1 := agent_update_speed_le a t dt h
    have h2 := agent_update_max_speed a t dt
    have := ih (agent_update a t dt).1 (agent_update a t dt).2 (by rw [h2]; exact h1)
    simp only [applyTicks]
    exact ⟨by rw [h2] at this; exact this.1, by rw [h2] at this; exact this.2⟩

theorem applyTicks_human_speed_le :
    ∀ (ticks : List ℝ) (a : KAgent) (t : List Point),
      (∀ d ∈ ticks, 0 ≤ d) → a.speed ≤ a.max_speed → 0.1 ≤ a.max_speed →
      (applyTicks human_update a t ticks).1.speed ≤ a.max_speed ∧
      (applyTicks human_update a t ticks).1.max_speed = a.max_speed := by
  intro ticks
  induction ticks with
  | nil => intro a t _ h _; exact ⟨h, rfl⟩
  | cons dt rest ih =>
    intro a t hd h hm
    have hdt : 0 ≤ dt := hd dt (List.mem_cons_self dt rest)
    have h1 := human_update_speed_le a t dt hdt h hm
    have h2 := human_update_max_speed a t dt
    have := ih (human_update a t dt).1 (human_update a t dt).2
      (fun d hmem => hd d (List.mem_cons_of_mem dt hmem))
      (by rw [h2]; exact h1) (by rw [h2]; exact hm)
    simp only [applyTicks]
    exact ⟨by rw [h2] at this; exact this.1, by rw [h2] at this; exact this.2⟩

theorem droneApplyTicks_eq_base :
    ∀ (ticks : List ℝ) (a : KAgent) (e : ℝ) (t : List Point),
      (droneApplyTicks a e t ticks).1 = (applyTicks agent_update a t ticks).1 := by
  intro ticks
  induction ticks with
  | nil => intro a e t; rfl
  | cons dt rest ih =>
    intro a e t
    simp only [droneApplyTicks, applyTicks, drone_update]
    exact ih _ _ _

/-! ### The first-minimum characterization of `py_min` -/

theorem py_min_go_mem {α : Type} (key : α → ℝ) :
    ∀ (l : List α) (b : α × ℝ), ∃ r, py_min_go key (some b) l = some r ∧
      (r = b ∨ (r.1 ∈ l ∧ r.2 = key r.1)) := by
  intro l
  induction l with
  | nil => intro b; exact ⟨b, rfl, Or.inl rfl⟩
  | cons x xs ih =>
    intro b
    simp only [py_min_go]
    split_ifs with hlt
    · obtain ⟨r, hr, hcase⟩ := ih (x, key x)
      refine ⟨r, hr, Or.inr ?_⟩
      rcases hcase with rfl | ⟨hmem, hkey⟩
      · exact ⟨List.mem_cons_self x xs, rfl⟩
      · exact ⟨List.mem_cons_of_mem x hmem, hkey⟩
    · obtain ⟨r, hr, hcase⟩ := ih b
      refine ⟨r, hr, ?_⟩
      rcases hcase with rfl | ⟨hmem, hkey⟩
      · exact Or.inl rfl
      · exact Or.inr ⟨List.mem_cons_of_mem x hmem, hkey⟩

theorem py_min_mem {α : Type} (key : α → ℝ) (l : List α) (hl : l ≠ []) :
    ∃ r, py_min key l = some r ∧ r.1 ∈ l ∧ r.2 = key r.1 := by
  cases l with
  | nil => exact absurd rfl hl
  | cons x xs =>
    obtain ⟨r, hr, hcase⟩ := py_min_go_mem key xs (x, key x)
    refine ⟨r, hr, ?_⟩
    rcases hcase with rfl | ⟨hmem, hkey⟩
    · exact ⟨List.mem_cons_self x xs, rfl⟩
    · exact ⟨List.mem_cons_of_mem x hmem, hkey⟩

theorem py_min_go_spec {α : Type} (key : α → ℝ) :
    ∀ (l : List α) (b : α),
      (py_min_go key (some (b, key b)) l = some (b, key b) ∧
        ∀ y ∈ l, key b ≤ key y) ∨
      (∃ i, ∃ h : i < l.length,
        py_min_go key (some (b, key b)) l =
          some (l.get ⟨i, h⟩, key (l.get ⟨i, h⟩)) ∧
        key (l.get ⟨i, h⟩) < key b ∧
        (∀ k, ∀ hk : k < l.length,
          key (l.get ⟨i, h⟩) ≤ key (l.get ⟨k, hk⟩)) ∧
        (∀ k, ∀ hk : k < l.length, k < i →
          key (l.get ⟨i, h⟩) < key (l.get ⟨k, hk⟩))) := by
  intro l
  induction l with
  | nil => intro b; exact Or.inl ⟨rfl, by simp⟩
  | cons x xs ih =>
    intro b
    simp only [py_min_go]
    split_ifs with hlt
    · rcases ih x with ⟨heq, hall⟩ | ⟨i, h, heq, hlt2, hmin, hfirst⟩
      · refine Or.inr ⟨0, by simp, ?_, ?_, ?_, ?_⟩
        · simpa using heq
        · simpa using hlt
        · intro k hk
          match k with
          | 0 => simp
          | k + 1 =>
            simp only [List.get_cons_succ, List.get_cons_zero]
            exact hall _ (List.get_mem xs _ _)
        · intro k hk hk0
          exact absurd hk0 (Nat.not_lt_zero k)
      · refine Or.inr ⟨i + 1, by simpa using Nat.succ_lt_succ h, ?_, ?_, ?_, ?_⟩
        · simpa using heq
        · exact lt_trans (by simpa using hlt2) hlt
        · intro k hk
          match k with
          | 0 =>
            simp only [List.get_cons_succ, List.get_cons_zero]
            exact le_of_lt (by simpa using hlt2)
          | k + 1 =>
            simp only [List.get_cons_succ]
            exact hmin k (Nat.lt_of_succ_lt_succ hk)
        · intro k hk hki
          match k with
          | 0 =>
            simp only [List.get_cons_succ, List.get_cons_zero]
            exact by simpa using hlt2
          | k + 1 =>
            simp only [List.get_cons_succ]
            exact hfirst k (Nat.lt_of_succ_lt_succ hk) (Nat.lt_of_succ_lt_succ hki)
    · have hxb : key b ≤ key x := not_lt.mp hlt
      rcases ih b with ⟨heq, hall⟩ | ⟨i, h, heq, hlt2, hmin, hfirst⟩
      · refine Or.inl ⟨heq, ?_⟩
        intro y hy
        rcases List.mem_cons.mp hy with rfl | hy
        · exact hxb
        · exact hall y hy
      · refine Or.inr ⟨i + 1, by simpa using Nat.succ_lt_succ h, ?_, ?_, ?_, ?_⟩
        · simpa using heq
        · exact hlt2
        · intro k hk
          match k with
          | 0 =>
            simp only [List.get_cons_succ, List.get_cons_zero]
            exact le_of_lt (lt_of_lt_of_le hlt2 hxb)
          | k + 1 =>
            simp only [List.get_cons_succ]
            exact hmin k (Nat.lt_of_succ_lt_succ hk)
        · intro k hk hki
          match k with
          | 0 =>
            simp only [List.get_cons_succ, List.get_cons_zero]
            exact lt_of_lt_of_le hlt2 hxb
          | k + 1 =>
            simp only [List.get_cons_succ]
            exact hfirst k (Nat.lt_of_succ_lt_succ hk) (Nat.lt_of_succ_lt_succ hki)

/-- The fold `py_min` returns the element at the first index attaining the minimal
key, together with that key. -/
theorem py_min_first_min {α : Type} (key : α → ℝ) (l : List α) (hl : l ≠ []) :
    ∃ i, ∃ h : i < l.length,
      py_min key l = some (l.get ⟨i, h⟩, key (l.get ⟨i, h⟩)) ∧
      (∀ k, ∀ hk : k < l.length,
        key (l.get ⟨i, h⟩) ≤ key (l.get ⟨k, hk⟩)) ∧
      (∀ k, ∀ hk : k < l.length, k < i →
        key (l.get ⟨i, h⟩) < key (l.get ⟨k, hk⟩)) := by
  cases l with
  | nil => exact absurd rfl hl
  | cons x xs =>
    show ∃ _, _
    rcases py_min_go_spec key xs x with ⟨heq, hall⟩ | ⟨i, h, heq, hlt2, hmin, hfirst⟩
    · refine ⟨0, by simp, ?_, ?_, ?_⟩
      · simpa [py_min, py_min_go] using heq
      · intro k hk
        match k with
        | 0 => simp
        | k + 1 =>
          simp only [List.get_cons_succ, List.get_cons_zero]
          exact hall _ (List.get_mem xs _ _)
      · intro k hk hk0
        exact absurd hk0 (Nat.not_lt_zero k)
    · refine ⟨i + 1, by simpa using Nat.succ_lt_succ h, ?_, ?_, ?_⟩
      · simpa [py_min, py_min_go] using heq
      · intro k hk
        match k with
        | 0 =>
          simp only [List.get_cons_succ, List.get_cons_zero]
          exact le_of_lt hlt2
        | k + 1 =>
          simp only [List.get_cons_succ]
          exact hmin k (Nat.lt_of_succ_lt_succ hk)
      · intro k hk hki
        match k with
        | 0 =>
          simp only [List.get_cons_succ, List.get_cons_zero]
          exact hlt2
        | k + 1 =>
          simp only [List.get_cons_succ]
          exact hfirst k (Nat.lt_of_succ_lt_succ hk) (Nat.lt_of_succ_lt_succ hki)

/-- Two first-minimum indices for the same key function coincide. -/
theorem first_min_unique {α : Type} (key : α → ℝ) (l : List α)
    (i j : ℕ) (hi : i < l.length) (hj : j < l.length)
    (hmini : ∀ k, ∀ hk : k < l.length, key (l.get ⟨i, hi⟩) ≤ key (l.get ⟨k, hk⟩))
    (hfirsti : ∀ k, ∀ hk : k < l.length, k < i →
      key (l.get ⟨i, hi⟩) < key (l.get ⟨k, hk⟩))
    (hminj : ∀ k, ∀ hk : k < l.length, key (l.get ⟨j, hj⟩) ≤ key (l.get ⟨k, hk⟩))
    (hfirstj : ∀ k, ∀ hk : k < l.length, k < j →
      key (l.get ⟨j, hj⟩) < key (l.get ⟨k, hk⟩)) : i = j := by
  rcases lt_trichotomy i j with hij | hij | hij
  · exact absurd (hmini j hj) (not_le.mpr (hfirstj i hi hij))
  · exact hij
  · exact absurd (hminj i hi) (not_le.mpr (hfirsti j hj hij))

theorem pyEnum_length {α : Type} : ∀ (l : List α) (i : ℕ),
    (pyEnum i l).length = l.length := by
  intro l
  induction l with
  | nil => intro i; rfl
  | cons x xs ih => intro i; simp [pyEnum, ih]

theorem pyEnum_get {α : Type} : ∀ (l : List α) (i : ℕ) (k : ℕ)
    (hk : k < (pyEnum i l).length) (hk2 : k < l.length),
    (pyEnum i l).get ⟨k, hk⟩ = (i + k, l.get ⟨k, hk2⟩) := by
  intro l
  induction l with
  | nil => intro i k hk hk2; exact absurd hk2 (Nat.not_lt_zero k)
  | cons x xs ih =>
    intro i k hk hk2
    match k with
    | 0 => simp [pyEnum]
    | k + 1 =>
      have hk' : k < (pyEnum (i + 1) xs).length := by
        simpa [pyEnum] using hk
      have hk2' : k < xs.length := Nat.lt_of_succ_lt_succ hk2
      show (pyEnum (i + 1) xs).get ⟨k, hk'⟩ = _
      rw [ih (i + 1) k hk' hk2']
      simp only [List.get_cons_succ]
      congr 1
      omega

theorem getD_eq_get {α : Type} (l : List α) (j : ℕ) (d : α) (hj : j < l.length) :
    l.getD j d = l.get ⟨j, hj⟩ := by
  induction l generalizing j with
  | nil => exact absurd hj (Nat.not_lt_zero j)
  | cons x xs ih =>
    match j with
    | 0 => rfl
    | j + 1 => exact ih j (Nat.lt_of_succ_lt_succ hj)

/-- The closest-trash scan returns the first index of minimal distance. -/
theorem closest_trash_spec (pos : Point) (rem : List Point) (h : rem ≠ []) :
    ∃ i, ∃ hi : i < rem.length,
      closest_trash pos rem = some (i, distance pos (rem.get ⟨i, hi⟩)) ∧
      (∀ k, ∀ hk : k < rem.length,
        distance pos (rem.get ⟨i, hi⟩) ≤ distance pos (rem.get ⟨k, hk⟩)) ∧
      (∀ k, ∀ hk : k < rem.length, k < i →
        distance pos (rem.get ⟨i, hi⟩) < distance pos (rem.get ⟨k, hk⟩)) := by
  have hne : pyEnum 0 rem ≠ [] := by
    intro hh
    apply h
    have hlen := pyEnum_length rem 0
    rw [hh] at hlen
    exact List.length_eq_zero.mp hlen.symm
  obtain ⟨i, hEnum, heq, hmin, hfirst⟩ :=
    py_min_first_min (fun ip => distance pos ip.2) (pyEnum 0 rem) hne
  have hi : i < rem.length := by rw [← pyEnum_length rem 0]; exact hEnum
  have hgi := pyEnum_get rem 0 i hEnum hi
  refine ⟨i, hi, ?_, ?_, ?_⟩
  · unfold closest_trash py_min
    unfold py_min at heq
    rw [heq, hgi]
    simp
  · intro k hk
    have hk' : k < (pyEnum 0 rem).length := by rw [pyEnum_length]; exact hk
    have := hmin k hk'
    rw [hgi, pyEnum_get rem 0 k hk' hk] at this
    simpa using this
  · intro k hk hki
    have hk' : k < (pyEnum 0 rem).length := by rw [pyEnum_length]; exact hk
    have := hfirst k hk' hki
    rw [hgi, pyEnum_get rem 0 k hk' hk] at this
    simpa using this

/-- Python `min(remaining, key=distance)` returns the element at the first index of
minimal distance. -/
theorem minByDist_spec (pos : Point) (rem : List Point) (h : rem ≠ []) :
    ∃ i, ∃ hi : i < rem.length,
      minByDist pos rem = some (rem.get ⟨i, hi⟩) ∧
      (∀ k, ∀ hk : k < rem.length,
        distance pos (rem.get ⟨i, hi⟩) ≤ distance pos (rem.get ⟨k, hk⟩)) ∧
      (∀ k, ∀ hk : k < rem.length, k < i →
        distance pos (rem.get ⟨i, hi⟩) < distance pos (rem.get ⟨k, hk⟩)) := by
  obtain ⟨i, hi, heq, hmin, hfirst⟩ := py_min_first_min (distance pos) rem h
  refine ⟨i, hi, ?_, hmin, hfirst⟩
  unfold minByDist
  rw [heq]
  rfl

theorem eraseIdx_eq_erase_first (l : List Point) (i : ℕ) (hi : i < l.length)
    (hne : ∀ k, ∀ hk : k < l.length, k < i → l.get ⟨k, hk⟩ ≠ l.get ⟨i, hi⟩) :
    l.eraseIdx i = l.erase (l.get ⟨i, hi⟩) := by
  induction l generalizing i with
  | nil => exact absurd hi (Nat.not_lt_zero i)
  | cons x xs ih =>
    match i with
    | 0 => simp
    | i + 1 =>
      have hi' : i < xs.length := Nat.lt_of_succ_lt_succ hi
      have hx : x ≠ (x :: xs).get ⟨i + 1, hi⟩ :=
        hne 0 (Nat.succ_pos _) (Nat.succ_pos _)
      simp only [List.get_cons_succ] at hx
      have hrec := ih i hi' (fun k hk hki => by
        have := hne (k + 1) (Nat.succ_lt_succ hk) (Nat.succ_lt_succ hki)
        simpa using this)
      simp only [List.get_cons_succ, List.eraseIdx_cons_succ]
      rw [hrec, List.erase_cons_tail]
      intro hcontra
      exact hx (by simpa using hcontra)

/-- One dispatcher step on a non-empty pool removes exactly the chosen trash
item from the pool and appends it to the assignment record. -/
theorem simStep_char (speed_m_s : ℝ) (st : SimState) (h : st.remaining ≠ []) :
    ∃ j, ∃ hj : j < st.remaining.length,
      (simStep speed_m_s st).remaining = st.remaining.eraseIdx j ∧
      (simStep speed_m_s st).assigned =
        st.assigned ++ [st.remaining.get ⟨j, hj⟩] := by
  unfold simStep
  cases hrem : st.remaining with
  | nil => exact absurd hrem h
  | cons p ps =>
    simp only
    obtain ⟨j, hj, heq, hmin, hfirst⟩ :=
      closest_trash_spec
        (getAgent
          ((st.agents.map fun a =>
            { a with time_to_free := a.time_to_free -
                (getAgent st.agents (min_ttf_index st.agents)).time_to_free }).set
            (min_ttf_index st.agents)
            { getAgent
                (st.agents.map fun a =>
                  { a with time_to_free := a.time_to_free -
                    (getAgent st.agents (min_ttf_index st.agents)).time_to_free })
                (min_ttf_index st.agents) with time_to_free := 0 })
          (min_ttf_index st.agents)).position
        (p :: ps) (List.cons_ne_nil p ps)
    rw [heq]
    refine ⟨j, hj, rfl, ?_⟩
    simp only
    rw [getD_eq_get (p :: ps) j (0, 0) hj]

theorem simStep_remaining_length (speed_m_s : ℝ) (st : SimState)
    (h : st.remaining ≠ []) :
    (simStep speed_m_s st).remaining.length = st.remaining.length - 1 := by
  obtain ⟨j, hj, hrem, _⟩ := simStep_char speed_m_s st h
  rw [hrem, List.length_eraseIdx]
  simp [hj]

theorem simLoopFuel_nil (speed_m_s : ℝ) (fuel : ℕ) (st : SimState)
    (h : st.remaining = []) : simLoopFuel speed_m_s fuel st = st := by
  cases fuel with
  | zero => rfl
  | succ n =>
    unfold simLoopFuel
    rw [h]

theorem simLoopFuel_succ_ne (speed_m_s : ℝ) (n : ℕ) (st : SimState)
    (h : st.remaining ≠ []) :
    simLoopFuel speed_m_s (n + 1) st = simLoopFuel speed_m_s n (simStep speed_m_s st) := by
  cases hrem : st.remaining with
  | nil => exact absurd hrem h
  | cons p ps =>
    conv_lhs => rw [simLoopFuel]
    rw [hrem]

theorem simLoopFuel_drains (speed_m_s : ℝ) :
    ∀ (fuel : ℕ) (st : SimState), st.remaining.length ≤ fuel →
      (simLoopFuel speed_m_s fuel st).remaining = [] := by
  intro fuel
  induction fuel with
  | zero =>
    intro st h
    exact List.length_eq_zero.mp (Nat.le_zero.mp h)
  | succ n ih =>
    intro st h
    by_cases hrem : st.remaining = []
    · rw [simLoopFuel_nil speed_m_s (n + 1) st hrem]
      exact hrem
    · rw [simLoopFuel_succ_ne speed_m_s n st hrem]
      apply ih
      rw [simStep_remaining_length speed_m_s st hrem]
      have hpos : 0 < st.remaining.length := List.length_pos.mpr hrem
      omega

theorem count_eraseIdx_get (p : Point) :
    ∀ (l : List Point) (j : ℕ) (hj : j < l.length),
      (l.eraseIdx j).count p + (if l.get ⟨j, hj⟩ = p then 1 else 0) =
        l.count p := by
  intro l
  induction l with
  | nil => intro j hj; exact absurd hj (Nat.not_lt_zero j)
  | cons y ys ih =>
    intro j hj
    match j with
    | 0 =>
      simp only [List.eraseIdx_cons_zero, List.get_cons_zero]
      by_cases hyp : y = p <;> simp [List.count_cons, hyp, beq_iff_eq]
    | j + 1 =>
      have hj' : j < ys.length := Nat.lt_of_succ_lt_succ hj
      have hrec := ih j hj'
      simp only [List.eraseIdx_cons_succ, List.get_cons_succ]
      rw [List.count_cons, List.count_cons]
      omega

theorem simLoopFuel_count (speed_m_s : ℝ) (p : Point) :
    ∀ (fuel : ℕ) (st : SimState), st.remaining.length ≤ fuel →
      (simLoopFuel speed_m_s fuel st).assigned.count p =
        st.assigned.count p + st.remaining.count p := by
  intro fuel
  induction fuel with
  | zero =>
    intro st h
    have : st.remaining = [] := List.length_eq_zero.mp (Nat.le_zero.mp h)
    simp [simLoopFuel, this]
  | succ n ih =>
    intro st h
    by_cases hrem : st.remaining = []
    · rw [simLoopFuel_nil speed_m_s (n + 1) st hrem]
      simp [hrem]
    · rw [simLoopFuel_succ_ne speed_m_s n st hrem]
      obtain ⟨j, hj, hrem2, hasg⟩ := simStep_char speed_m_s st hrem
      rw [ih (simStep speed_m_s st) (by
        rw [simStep_remaining_length speed_m_s st hrem]
        have hpos : 0 < st.remaining.length := List.length_pos.mpr hrem
        omega)]
      rw [hasg, hrem2]
      rw [List.count_append]
      have hcnt := count_eraseIdx_get p st.remaining j hj
      have hone : List.count p [st.remaining.get ⟨j, hj⟩] =
          if st.remaining.get ⟨j, hj⟩ = p then 1 else 0 := by
        by_cases hx : st.remaining.get ⟨j, hj⟩ = p <;>
          simp [List.count_cons, hx, beq_iff_eq]
      rw [hone]
      omega

/-! ### Concrete evaluation helpers -/

theorem dist_eval {a b c d v : ℝ} (hv : 0 ≤ v)
    (h : (a - c) ^ 2 + (b - d) ^ 2 = v ^ 2) :
    distance (a, b) (c, d) = v := by
  unfold distance
  simp only
  rw [h]
  exact Real.sqrt_sq hv

/-! ### Claim theorems -/

/-- C9 counterexample: running the dispatcher does not empty the caller's
task list.  On the input `[(3, 0)]` with one agent at speed 1, the input
collection after the run is still `[(3, 0)]`, not `[]`: line 33 of
`simulation.py` copies the list and the loop pops only from the copy. -/
theorem C9_counterexample :
    (concurrency_simulation_run 1 1 [((3 : ℝ), (0 : ℝ))]).2 =
      [((3 : ℝ), (0 : ℝ))] ∧
    ([((3 : ℝ), (0 : ℝ))] : List Point) ≠ [] := by
  constructor
  · unfold concurrency_simulation_run
    split_ifs <;> rfl
  · simp

/-- C9 amended: the dispatcher consumes a *copy* of the task pool — its
internal working pool is empty at termination — while the caller's input task
list is returned unchanged; the agent records are created inside the call, not
taken from the caller. -/
theorem C9_pool_copied_not_consumed (num_agents : ℕ) (speed_m_s : ℝ)
    (trash_locations : List Point) :
    (concurrency_simulation_run num_agents speed_m_s trash_locations).2 =
      trash_locations ∧
    (simLoop speed_m_s (initState num_agents trash_locations)).remaining = [] := by
  constructor
  · unfold concurrency_simulation_run
    split_ifs <;> rfl
  · unfold simLoop
    exact simLoopFuel_drains speed_m_s _ _ le_rfl

/-- C7: for every dispatcher input in which the agent count is zero, the speed
is zero, or the task set is empty, `concurrency_simulation` returns completion
time 0 and total distance 0 as a well-formed no-op rather than an error. -/
theorem C7_empty_input_noop (num_agents : ℕ) (speed_m_s : ℝ)
    (trash_locations : List Point)
    (h : num_agents = 0 ∨ speed_m_s = 0 ∨ trash_locations = []) :
    concurrency_simulation num_agents speed_m_s trash_locations = (0, 0) := by
  have hg : num_agents = 0 ∨ speed_m_s ≤ 0 ∨ trash_locations = [] := by
    rcases h with h | h | h
    · exact Or.inl h
    · exact Or.inr (Or.inl (le_of_eq h))
    · exact Or.inr (Or.inr h)
  unfold concurrency_simulation concurrency_simulation_run
  rw [if_pos hg]

theorem C7_witness :
    ((0 : ℕ) = 0 ∨ (1 : ℝ) = 0 ∨ ([((3 : ℝ), (0 : ℝ))] : List Point) = []) ∧
    concurrency_simulation 0 1 [((3 : ℝ), (0 : ℝ))] = (0, 0) :=
  ⟨Or.inl rfl, C7_empty_input_noop 0 1 _ (Or.inl rfl)⟩

/-- C2: on a guarded run (non-empty tasks, positive agent count and speed) the
dispatcher's returned completion time equals the final global clock — which is
exactly the sum of the per-step minimum time-to-free advances recorded in
`advances` — plus the maximum remaining time-to-free over the agents at the
moment the last task is assigned. -/
theorem C2_completion_time_accounting (num_agents : ℕ) (speed_m_s : ℝ)
    (trash_locations : List Point) (hn : 0 < num_agents) (hs : 0 < speed_m_s)
    (ht : trash_locations ≠ []) :
    (concurrency_simulation num_agents speed_m_s trash_locations).1 =
      (simLoop speed_m_s (initState num_agents trash_locations)).advances.sum +
        maxTTF (simLoop speed_m_s (initState num_agents trash_locations)).agents := by
  have hg : ¬(num_agents = 0 ∨ speed_m_s ≤ 0 ∨ trash_locations = []) := by
    push_neg
    exact ⟨hn.ne', hs, ht⟩
  unfold concurrency_simulation concurrency_simulation_run
  rw [if_neg hg]
  have hclock :
      (simLoop speed_m_s (initState num_agents trash_locations)).time_passed =
        (simLoop speed_m_s (initState num_agents trash_locations)).advances.sum := by
    unfold simLoop
    exact simLoopFuel_clock speed_m_s _ _ rfl
  simp only
  rw [hclock]

theorem C2_witness :
    0 < 1 ∧ (0 : ℝ) < 1 ∧ ([((3 : ℝ), (0 : ℝ))] : List Point) ≠ [] ∧
    (concurrency_simulation 1 1 [((3 : ℝ), (0 : ℝ))]).1 =
      (simLoop 1 (initState 1 [((3 : ℝ), (0 : ℝ))])).advances.sum +
        maxTTF (simLoop 1 (initState 1 [((3 : ℝ), (0 : ℝ))])).agents :=
  ⟨Nat.one_pos, one_pos, by simp,
    C2_completion_time_accounting 1 1 _ Nat.one_pos one_pos (by simp)⟩

/-- C10: for a kinematic agent whose initial speed is at most `max_speed`,
no sequence of update ticks with non-negative deltas can push the current
speed above `max_speed`: this holds for the base `Agent.update`, for the
drone update (which only adds energy bookkeeping), and for the human update
whenever the 0.1 floor is below `max_speed` (as in the source, where human
`max_speed` is 2.0). -/
theorem C10_speed_never_exceeds_max (a : KAgent) (e : ℝ) (t : List Point)
    (ticks : List ℝ) (hd : ∀ d ∈ ticks, 0 ≤ d) (h : a.speed ≤ a.max_speed) :
    (applyTicks agent_update a t ticks).1.speed ≤ a.max_speed ∧
    (droneApplyTicks a e t ticks).1.speed ≤ a.max_speed ∧
    (0.1 ≤ a.max_speed →
      (applyTicks human_update a t ticks).1.speed ≤ a.max_speed) := by
  refine ⟨(applyTicks_base_speed_le ticks a t h).1, ?_,
    fun hm => (applyTicks_human_speed_le ticks a t hd h hm).1⟩
  rw [droneApplyTicks_eq_base]
  exact (applyTicks_base_speed_le ticks a t h).1

/-- A drone as constructed in `new.py` (speed 0, acceleration 2,
max speed 16), used as a concrete input below. -/
def sampleDrone : KAgent :=
  { route := [(0, 0), (3, 4)]
    position_index := 0
    current_position := (0, 0)
    speed := 0
    acceleration := 2
    max_speed := 16
    pickup_time := 4
    pickup_timer := 0
    distance_traveled := 0
    total_time := 0
    capacity := 1
    collected_positions := [] }

theorem C10_witness :
    (∀ d ∈ ([1, 2] : List ℝ), 0 ≤ d) ∧
    sampleDrone.speed ≤ sampleDrone.max_speed ∧
    ((applyTicks agent_update sampleDrone [] [1, 2]).1.speed ≤
        sampleDrone.max_speed ∧
      (droneApplyTicks sampleDrone 0 [] [1, 2]).1.speed ≤ sampleDrone.max_speed ∧
      (0.1 ≤ sampleDrone.max_speed →
        (applyTicks human_update sampleDrone [] [1, 2]).1.speed ≤
          sampleDrone.max_speed)) := by
  have hd : ∀ d ∈ ([1, 2] : List ℝ), 0 ≤ d := by
    intro d hdm
    rcases List.mem_cons.mp hdm with rfl | hdm
    · norm_num
    · rcases List.mem_cons.mp hdm with rfl | hdm
      · norm_num
      · simp at hdm
  have hsp : sampleDrone.speed ≤ sampleDrone.max_speed := by
    norm_num [sampleDrone]
  exact ⟨hd, hsp, C10_speed_never_exceeds_max sampleDrone 0 [] [1, 2] hd hsp⟩

/-- Evaluation of the dispatcher loop on one agent, speed 1, single task
`(3, 0)`: the agent ends at the task position — never back at any depot — with
time-to-free 3 and distance 3. -/
theorem run_single_task :
    simLoop 1 (initState 1 [((3 : ℝ), (0 : ℝ))]) =
      { agents := [⟨((3 : ℝ), (0 : ℝ)), 3, 3⟩]
        remaining := []
        time_passed := 0
        assigned := [((3 : ℝ), (0 : ℝ))]
        advances := [0] } := by
  have d1 : distance ((0 : ℝ), (0 : ℝ)) ((3 : ℝ), (0 : ℝ)) = 3 :=
    dist_eval (by norm_num) (by norm_num)
  have d1' : distance (0 : ℝ × ℝ) ((3 : ℝ), (0 : ℝ)) = 3 := d1
  unfold simLoop initState
  norm_num [simLoopFuel, simStep, min_ttf_index, closest_trash, py_min,
    py_min_go, pyEnum, getAgent, List.range_succ, List.range_zero, d1, d1',
    maxTTF, sumDist, SimState.mk.injEq, AgentRec.mk.injEq]

/-- C1: the dispatcher `concurrency_simulation` has no capacity or depot
parameter and never performs a depot-return leg.  On one agent, speed 1, task
list `[(3, 0)]` — where any positive capacity would be full after the single
claim — the run ends with the agent still at `(3, 0)` (not reset to the depot
`(0, 0)`) and total distance 3 (the return leg's distance 3 is never added,
and the result would be 6 under the claimed behavior with capacity 1). -/
theorem C1_no_capacity_no_depot_return :
    concurrency_simulation 1 1 [((3 : ℝ), (0 : ℝ))] = (3, 3) ∧
    (simLoop 1 (initState 1 [((3 : ℝ), (0 : ℝ))])).agents.map
      AgentRec.position = [((3 : ℝ), (0 : ℝ))] ∧
    ((3 : ℝ), (0 : ℝ)) ≠ ((0 : ℝ), (0 : ℝ)) := by
  refine ⟨?_, ?_, by norm_num⟩
  · unfold concurrency_simulation concurrency_simulation_run
    rw [if_neg (by push_neg; exact ⟨one_ne_zero, by norm_num, by simp⟩)]
    simp only
    rw [run_single_task]
    norm_num [maxTTF, sumDist]
  · rw [run_single_task]
    rfl

/-- Evaluation of the dispatcher loop on the spec's concrete scenario:
one agent at speed 1, tasks `(3,0)`, `(3,4)`, `(0,4)`.  The greedy order is
`(3,0)`, `(3,4)`, `(0,4)` with clock advances 0, 3, 4 and final agent state
position `(0,4)`, time-to-free 3, distance 10. -/
theorem run_three_tasks :
    simLoop 1 (initState 1
        [((3 : ℝ), (0 : ℝ)), ((3 : ℝ), (4 : ℝ)), ((0 : ℝ), (4 : ℝ))]) =
      { agents := [⟨((0 : ℝ), (4 : ℝ)), 3, 10⟩]
        remaining := []
        time_passed := 7
        assigned := [((3 : ℝ), (0 : ℝ)), ((3 : ℝ), (4 : ℝ)), ((0 : ℝ), (4 : ℝ))]
        advances := [0, 3, 4] } := by
  have d1 : distance ((0 : ℝ), (0 : ℝ)) ((3 : ℝ), (0 : ℝ)) = 3 :=
    dist_eval (by norm_num) (by norm_num)
  have d1' : distance (0 : ℝ × ℝ) ((3 : ℝ), (0 : ℝ)) = 3 := d1
  have d2 : distance ((0 : ℝ), (0 : ℝ)) ((3 : ℝ), (4 : ℝ)) = 5 :=
    dist_eval (by norm_num) (by norm_num)
  have d2' : distance (0 : ℝ × ℝ) ((3 : ℝ), (4 : ℝ)) = 5 := d2
  have d3 : distance ((0 : ℝ), (0 : ℝ)) ((0 : ℝ), (4 : ℝ)) = 4 :=
    dist_eval (by norm_num) (by norm_num)
  have d3' : distance (0 : ℝ × ℝ) ((0 : ℝ), (4 : ℝ)) = 4 := d3
  have d4 : distance ((3 : ℝ), (0 : ℝ)) ((3 : ℝ), (4 : ℝ)) = 4 :=
    dist_eval (by norm_num) (by norm_num)
  have d5 : distance ((3 : ℝ), (0 : ℝ)) ((0 : ℝ), (4 : ℝ)) = 5 :=
    dist_eval (by norm_num) (by norm_num)
  have d6 : distance ((3 : ℝ), (4 : ℝ)) ((0 : ℝ), (4 : ℝ)) = 3 :=
    dist_eval (by norm_num) (by norm_num)
  unfold simLoop initState
  norm_num [simLoopFuel, simStep, min_ttf_index, closest_trash, py_min,
    py_min_go, pyEnum, getAgent, List.range_succ, List.range_zero,
    List.eraseIdx, d1, d1', d2, d2', d3, d3', d4, d5, d6,
    SimState.mk.injEq, AgentRec.mk.injEq]

/-- C6: on depot `(0,0)`, tasks `(3,0)`, `(3,4)`, `(0,4)`, one agent, speed 1,
the dispatcher claims the tasks in nearest-neighbor order
`(3,0)`, `(3,4)`, `(0,4)` and returns total distance 10 and completion
time 10. -/
theorem C6_concrete_scenario :
    (simLoop 1 (initState 1
        [((3 : ℝ), (0 : ℝ)), ((3 : ℝ), (4 : ℝ)), ((0 : ℝ), (4 : ℝ))])).assigned =
      [((3 : ℝ), (0 : ℝ)), ((3 : ℝ), (4 : ℝ)), ((0 : ℝ), (4 : ℝ))] ∧
    concurrency_simulation 1 1
        [((3 : ℝ), (0 : ℝ)), ((3 : ℝ), (4 : ℝ)), ((0 : ℝ), (4 : ℝ))] =
      (10, 10) := by
  constructor
  · rw [run_three_tasks]
  · unfold concurrency_simulation concurrency_simulation_run
    rw [if_neg (by push_neg; exact ⟨one_ne_zero, by norm_num, by simp⟩)]
    simp only
    rw [run_three_tasks]
    norm_num [maxTTF, sumDist]

/-- A ground agent as constructed in `new.py` (`HumanAgent.__init__`: walking
speed 1.4, acceleration 0, max speed 2, pickup time 2, capacity 20), on the
two-waypoint route `(0,0) → (1,0)` whose endpoint is a task. -/
def sampleHuman : KAgent :=
  { route := [(0, 0), (1, 0)]
    position_index := 0
    current_position := (0, 0)
    speed := 1.4
    acceleration := 0
    max_speed := 2
    pickup_time := 2
    pickup_timer := 0
    distance_traveled := 0
    total_time := 0
    capacity := 20
    collected_positions := [] }

/-- C8 counterexample: on a tick in which the ground agent arrives at a task
waypoint (route index advances to 1 and the pickup timer starts), the speed
strictly decreases from 1.4 to 1.3993 — the update has no fatigue accumulator
and no partial recovery at waypoint arrival. -/
theorem C8_counterexample :
    (human_update sampleHuman [((1 : ℝ), (0 : ℝ))] 1).1.position_index = 1 ∧
    (human_update sampleHuman [((1 : ℝ), (0 : ℝ))] 1).1.pickup_timer = 2 ∧
    (human_update sampleHuman [((1 : ℝ), (0 : ℝ))] 1).1.speed = 1.3993 ∧
    (1.3993 : ℝ) < sampleHuman.speed := by
  have d1 : distance ((0 : ℝ), (0 : ℝ)) ((1 : ℝ), (0 : ℝ)) = 1 :=
    dist_eval (by norm_num) (by norm_num)
  have d1' : distance (0 : ℝ × ℝ) ((1 : ℝ), (0 : ℝ)) = 1 := d1
  refine ⟨?_, ?_, ?_, by norm_num [sampleHuman]⟩ <;>
    norm_num [human_update, agent_update, move_along_route, sampleHuman,
      fatigue_factor, d1, d1']

theorem move_along_route_speed_eq (a : KAgent) (t : List Point) (dt : ℝ)
    (hacc : a.acceleration = 0) :
    (move_along_route a t dt).1.speed = a.speed := by
  simp only [move_along_route, hacc]
  norm_num
  split_ifs <;> rfl

theorem agent_update_speed_eq (a : KAgent) (t : List Point) (dt : ℝ)
    (hacc : a.acceleration = 0) :
    (agent_update a t dt).1.speed = a.speed := by
  unfold agent_update
  split_ifs with h1
  · rfl
  · simpa using move_along_route_speed_eq a t dt hacc

/-- C8 amended: the ground agent's scalar speed decays multiplicatively each
tick and is floored at the positive minimum 0.1; it never increases — in
particular it does not recover at waypoint arrivals (there is no fatigue
accumulator in `new.py`). -/
theorem C8_decay_floor_no_recovery (a : KAgent) (t : List Point) (dt : ℝ)
    (hdt : 0 ≤ dt) (hs : 0.1 ≤ a.speed) (hacc : a.acceleration = 0) :
    (human_update a t dt).1.speed ≤ a.speed ∧
    0.1 ≤ (human_update a t dt).1.speed := by
  unfold human_update
  rw [agent_update_speed_eq _ t dt (by simpa using hacc)]
  have hsp : (0 : ℝ) < a.speed := lt_of_lt_of_le (by norm_num) hs
  have hpos : 0 ≤ a.speed * fatigue_factor * dt :=
    mul_nonneg (mul_nonneg hsp.le (by norm_num [fatigue_factor])) hdt
  simp only
  split_ifs with h1 h2 h3 <;> constructor <;> first
    | exact hs
    | linarith

theorem C8_decay_floor_no_recovery_witness :
    (0 : ℝ) ≤ 1 ∧ (0.1 : ℝ) ≤ sampleHuman.speed ∧ sampleHuman.acceleration = 0 ∧
    ((human_update sampleHuman [((1 : ℝ), (0 : ℝ))] 1).1.speed ≤
        sampleHuman.speed ∧
      0.1 ≤ (human_update sampleHuman [((1 : ℝ), (0 : ℝ))] 1).1.speed) :=
  ⟨by norm_num, by norm_num [sampleHuman], by norm_num [sampleHuman],
    C8_decay_floor_no_recovery sampleHuman [((1 : ℝ), (0 : ℝ))] 1 (by norm_num)
      (by norm_num [sampleHuman]) (by norm_num [sampleHuman])⟩

/-! ### Route-constructor lemmas -/

theorem minByDist_of_ne_nil (pos : Point) (rem : List Point) (h : rem ≠ []) :
    ∃ x, minByDist pos rem = some x ∧ x ∈ rem := by
  obtain ⟨r, hr, hmem, _⟩ := py_min_mem (distance pos) rem h
  exact ⟨r.1, by unfold minByDist; rw [hr]; rfl, hmem⟩

theorem minByDist_mem (pos : Point) (rem : List Point) (x : Point)
    (h : minByDist pos rem = some x) : x ∈ rem := by
  cases rem with
  | nil => exact absurd h (by simp [minByDist, py_min, py_min_go])
  | cons q qs =>
    obtain ⟨y, hy, hmem⟩ := minByDist_of_ne_nil pos (q :: qs) (by simp)
    rw [hy] at h
    exact Option.some_injective _ h ▸ hmem

/-- Removing the chosen element and prepending it preserves counts. -/
theorem count_cons_erase (p x : Point) (rem : List Point) (hx : x ∈ rem) :
    (if x = p then 1 else 0) + (rem.erase x).count p = rem.count p := by
  by_cases hxp : x = p
  · subst hxp
    rw [if_pos rfl, List.count_erase_self]
    have : 0 < rem.count x := List.count_pos_iff.mpr hx
    omega
  · rw [if_neg hxp, List.count_erase_of_ne (fun hh => hxp hh.symm) rem]
    omega

theorem nnGoFuel_count (p : Point) :
    ∀ (fuel : ℕ) (cur : Point) (rem : List Point), rem.length ≤ fuel →
      (nnGoFuel fuel cur rem).count p = rem.count p := by
  intro fuel
  induction fuel with
  | zero =>
    intro cur rem h
    have : rem = [] := List.length_eq_zero.mp (Nat.le_zero.mp h)
    simp [nnGoFuel, this]
  | succ n ih =>
    intro cur rem h
    by_cases hrem : rem = []
    · simp [nnGoFuel, hrem, minByDist, py_min, py_min_go]
    · obtain ⟨x, hx, hmem⟩ := minByDist_of_ne_nil cur rem hrem
      unfold nnGoFuel
      rw [hx]
      rw [List.count_cons]
      have hlen : (rem.erase x).length ≤ n := by
        rw [List.length_erase_of_mem hmem]
        have : 0 < rem.length := List.length_pos.mpr hrem
        omega
      rw [ih x (rem.erase x) hlen]
      have := count_cons_erase p x rem hmem
      by_cases hxp : x = p <;> simp [hxp, beq_iff_eq] at this ⊢ <;> omega

theorem chunkGo_len : ∀ (k : ℕ) (cur : Point) (rem : List Point),
    (chunkGo k cur rem).1.length ≤ k := by
  intro k
  induction k with
  | zero => intro cur rem; simp [chunkGo]
  | succ n ih =>
    intro cur rem
    unfold chunkGo
    cases hm : minByDist cur rem with
    | none => simp
    | some x =>
      simp only [List.length_cons]
      exact Nat.succ_le_succ (ih x (rem.erase x))

theorem chunkGo_sizes : ∀ (k : ℕ) (cur : Point) (rem : List Point),
    (chunkGo k cur rem).1.length + (chunkGo k cur rem).2.1.length =
      rem.length := by
  intro k
  induction k with
  | zero => intro cur rem; simp [chunkGo]
  | succ n ih =>
    intro cur rem
    unfold chunkGo
    cases hm : minByDist cur rem with
    | none => simp
    | some x =>
      have hmem := minByDist_mem cur rem x hm
      simp only [List.length_cons]
      have := ih x (rem.erase x)
      rw [List.length_erase_of_mem hmem] at this
      have hpos : 0 < rem.length := List.length_pos.mpr (by
        intro hh; rw [hh] at hmem; exact absurd hmem (List.not_mem_nil x))
      omega

theorem chunkGo_count (p : Point) : ∀ (k : ℕ) (cur : Point) (rem : List Point),
    (chunkGo k cur rem).1.count p + (chunkGo k cur rem).2.1.count p =
      rem.count p := by
  intro k
  induction k with
  | zero => intro cur rem; simp [chunkGo]
  | succ n ih =>
    intro cur rem
    unfold chunkGo
    cases hm : minByDist cur rem with
    | none => simp
    | some x =>
      have hmem := minByDist_mem cur rem x hm
      simp only [List.count_cons]
      have hih := ih x (rem.erase x)
      have hce := count_cons_erase p x rem hmem
      by_cases hxp : x = p <;> simp [hxp, beq_iff_eq] at hce hih ⊢ <;> omega

theorem chunkGo_ne_nil (k : ℕ) (cur : Point) (rem : List Point)
    (hk : 1 ≤ k) (hrem : rem ≠ []) : (chunkGo k cur rem).1 ≠ [] := by
  match k, hk with
  | n + 1, _ =>
    obtain ⟨x, hx, _⟩ := minByDist_of_ne_nil cur rem hrem
    unfold chunkGo
    rw [hx]
    simp

theorem buildLoopFuel_empty (bin : Point) (cap : ℕ) (fuel : ℕ) (cur : Point) :
    buildLoopFuel fuel bin cap cur [] = [] := by
  cases fuel with
  | zero => rfl
  | succ n => rfl

theorem buildLoopFuel_succ_ne (bin : Point) (cap : ℕ) (n : ℕ) (cur : Point)
    (rem : List Point) (h : rem ≠ []) :
    buildLoopFuel (n + 1) bin cap cur rem =
      (chunkGo (min cap rem.length) cur rem).1 ++ [bin] ++
        buildLoopFuel n bin cap bin (chunkGo (min cap rem.length) cur rem).2.1 := by
  cases rem with
  | nil => exact absurd rfl h
  | cons q qs => rfl

/-- The leftover pool after one chunk is strictly shorter (capacity ≥ 1). -/
theorem chunkGo_rem_lt (cap : ℕ) (cur : Point) (rem : List Point)
    (hcap : 1 ≤ cap) (hrem : rem ≠ []) :
    (chunkGo (min cap rem.length) cur rem).2.1.length < rem.length := by
  have hpos : 0 < rem.length := List.length_pos.mpr hrem
  have hnn := chunkGo_ne_nil (min cap rem.length) cur rem (by omega) hrem
  have hcl : 1 ≤ (chunkGo (min cap rem.length) cur rem).1.length :=
    Nat.one_le_iff_ne_zero.mpr (fun hz => hnn (List.length_eq_zero.mp hz))
  have hsz := chunkGo_sizes (min cap rem.length) cur rem
  omega

theorem buildLoopFuel_count (p bin : Point) (cap : ℕ) (hp : p ≠ bin)
    (hcap : 1 ≤ cap) :
    ∀ (fuel : ℕ) (cur : Point) (rem : List Point), rem.length ≤ fuel →
      (buildLoopFuel fuel bin cap cur rem).count p = rem.count p := by
  intro fuel
  induction fuel with
  | zero =>
    intro cur rem h
    have : rem = [] := List.length_eq_zero.mp (Nat.le_zero.mp h)
    simp [buildLoopFuel, this]
  | succ n ih =>
    intro cur rem h
    by_cases hrem : rem = []
    · rw [hrem, buildLoopFuel_empty]
    · rw [buildLoopFuel_succ_ne bin cap n cur rem hrem]
      simp only [List.count_append]
      have hchunk := chunkGo_count p (min cap rem.length) cur rem
      have hlt := chunkGo_rem_lt cap cur rem hcap hrem
      have hrec := ih bin (chunkGo (min cap rem.length) cur rem).2.1 (by omega)
      rw [hrec]
      have hbin : List.count p [bin] = 0 := by
        simp [List.count_cons, beq_iff_eq, Ne.symm hp]
      omega

theorem splitOnP_ne_nil {α : Type} (q : α → Bool) :
    ∀ (l : List α), List.splitOnP q l ≠ [] := by
  intro l
  induction l with
  | nil => simp [List.splitOnP_nil]
  | cons x xs ih =>
    rw [List.splitOnP_cons]
    split_ifs
    · simp
    · cases hs : List.splitOnP q xs with
      | nil => exact absurd hs ih
      | cons h t => simp [List.modifyHead]

theorem splitOnP_append_sep {α : Type} (q : α → Bool) (y : α) (hy : q y = true) :
    ∀ (xs ys : List α),
      List.splitOnP q (xs ++ y :: ys) =
        List.splitOnP q xs ++ List.splitOnP q ys := by
  intro xs ys
  induction xs with
  | nil => simp [List.splitOnP_cons, List.splitOnP_nil, hy]
  | cons x xs ih =>
    rw [List.cons_append, List.splitOnP_cons, List.splitOnP_cons, ih]
    split_ifs
    · simp
    · cases hs : List.splitOnP q xs with
      | nil => exact absurd hs (splitOnP_ne_nil q xs)
      | cons h t => simp [List.modifyHead]

theorem splitOnP_seg_length {α : Type} (q : α → Bool) :
    ∀ (l : List α) (seg : List α), seg ∈ List.splitOnP q l →
      seg.length ≤ l.length := by
  intro l
  induction l with
  | nil =>
    intro seg hseg
    simp [List.splitOnP_nil] at hseg
    simp [hseg]
  | cons x xs ih =>
    intro seg hseg
    rw [List.splitOnP_cons] at hseg
    by_cases hq : q x = true
    · rw [if_pos hq] at hseg
      rcases List.mem_cons.mp hseg with rfl | hseg
      · simp
      · exact le_trans (ih seg hseg) (Nat.le_succ _)
    · rw [if_neg hq] at hseg
      cases hs : List.splitOnP q xs with
      | nil => exact absurd hs (splitOnP_ne_nil q xs)
      | cons hh tt =>
        rw [hs] at hseg
        simp only [List.modifyHead] at hseg
        rcases List.mem_cons.mp hseg with rfl | hseg
        · have : hh ∈ List.splitOnP q xs := by rw [hs]; simp
          have := ih hh this
          simpa using Nat.succ_le_succ this
        · have : seg ∈ List.splitOnP q xs := by rw [hs]; simp [hseg]
          exact le_trans (ih seg this) (Nat.le_succ _)

theorem buildLoopFuel_runs (bin : Point) (cap : ℕ) (hcap : 1 ≤ cap) :
    ∀ (fuel : ℕ) (cur : Point) (rem : List Point), rem.length ≤ fuel →
      ∀ seg ∈ List.splitOnP (fun z => z = bin)
        (buildLoopFuel fuel bin cap cur rem), seg.length ≤ cap := by
  intro fuel
  induction fuel with
  | zero =>
    intro cur rem h seg hseg
    have : rem = [] := List.length_eq_zero.mp (Nat.le_zero.mp h)
    simp [buildLoopFuel, this, List.splitOnP_nil] at hseg
    simp [hseg]
  | succ n ih =>
    intro cur rem h seg hseg
    by_cases hrem : rem = []
    · rw [hrem, buildLoopFuel_empty] at hseg
      simp [List.splitOnP_nil] at hseg
      simp [hseg]
    · rw [buildLoopFuel_succ_ne bin cap n cur rem hrem] at hseg
      rw [show (chunkGo (min cap rem.length) cur rem).1 ++ [bin] ++
            buildLoopFuel n bin cap bin (chunkGo (min cap rem.length) cur rem).2.1 =
          (chunkGo (min cap rem.length) cur rem).1 ++ bin ::
            buildLoopFuel n bin cap bin (chunkGo (min cap rem.length) cur rem).2.1
          by simp] at hseg
      rw [splitOnP_append_sep (fun z => z = bin) bin (by simp)] at hseg
      rcases List.mem_append.mp hseg with hseg | hseg
      · have h1 := splitOnP_seg_length (fun z => z = bin) _ seg hseg
        have h2 := chunkGo_len (min cap rem.length) cur rem
        omega
      · have hlt := chunkGo_rem_lt cap cur rem hcap hrem
        exact ih bin (chunkGo (min cap rem.length) cur rem).2.1 (by omega) seg hseg

theorem buildLoopFuel_last (bin : Point) (cap : ℕ) :
    ∀ (fuel : ℕ) (cur : Point) (rem : List Point),
      buildLoopFuel fuel bin cap cur rem = [] ∨
      (buildLoopFuel fuel bin cap cur rem).getLast? = some bin := by
  intro fuel
  induction fuel with
  | zero => intro cur rem; exact Or.inl rfl
  | succ n ih =>
    intro cur rem
    by_cases hrem : rem = []
    · rw [hrem, buildLoopFuel_empty]
      exact Or.inl rfl
    · rw [buildLoopFuel_succ_ne bin cap n cur rem hrem]
      right
      rcases ih bin (chunkGo (min cap rem.length) cur rem).2.1 with hnil | hlast
      · rw [hnil, List.append_nil]
        simp [List.getLast?_append]
      · rw [List.getLast?_append, hlast]
        rfl

/-- C3: for every depot, task set and capacity ≥ 1, the route produced by
`build_path_with_capacity` begins at the depot, ends at the depot, and every
run of non-depot waypoints between consecutive depot occurrences has length at
most the capacity; `capacity_split_path` (`new.py`) builds the same route. -/
theorem C3_route_capacity_invariant (bin_pos : Point) (trash_points : List Point)
    (capacity : ℤ) (hcap : 1 ≤ capacity) :
    (build_path_with_capacity bin_pos trash_points capacity).head? =
      some bin_pos ∧
    (build_path_with_capacity bin_pos trash_points capacity).getLast? =
      some bin_pos ∧
    (∀ seg ∈ List.splitOnP (fun z => z = bin_pos)
        (build_path_with_capacity bin_pos trash_points capacity),
      (seg.length : ℤ) ≤ capacity) ∧
    capacity_split_path bin_pos trash_points capacity =
      build_path_with_capacity bin_pos trash_points capacity := by
  have hncap : ¬(capacity < 1) := not_lt.mpr hcap
  have hroute : build_path_with_capacity bin_pos trash_points capacity =
      bin_pos :: buildLoopFuel trash_points.length bin_pos capacity.toNat
        bin_pos trash_points := by
    unfold build_path_with_capacity
    rw [if_neg hncap]
  have hcapnat : 1 ≤ capacity.toNat := by omega
  have hcast : (capacity.toNat : ℤ) = capacity := Int.toNat_of_nonneg (by omega)
  refine ⟨?_, ?_, ?_, rfl⟩
  · rw [hroute]
    rfl
  · rw [hroute]
    rcases buildLoopFuel_last bin_pos capacity.toNat trash_points.length
        bin_pos trash_points with hnil | hlast
    · rw [hnil]
      rfl
    · show ([bin_pos] ++ buildLoopFuel trash_points.length bin_pos
        capacity.toNat bin_pos trash_points).getLast? = some bin_pos
      rw [List.getLast?_append, hlast]
      rfl
  · intro seg hseg
    rw [hroute, List.splitOnP_cons] at hseg
    rw [if_pos (by simp)] at hseg
    rcases List.mem_cons.mp hseg with rfl | hseg
    · simp
      omega
    · have := buildLoopFuel_runs bin_pos capacity.toNat hcapnat
        trash_points.length bin_pos trash_points le_rfl seg hseg
      omega

theorem C3_witness :
    (1 : ℤ) ≤ 1 ∧
    ((build_path_with_capacity ((0 : ℝ), (0 : ℝ)) [((3 : ℝ), (0 : ℝ))] 1).head? =
        some ((0 : ℝ), (0 : ℝ)) ∧
      (build_path_with_capacity ((0 : ℝ), (0 : ℝ)) [((3 : ℝ), (0 : ℝ))] 1).getLast? =
        some ((0 : ℝ), (0 : ℝ)) ∧
      (∀ seg ∈ List.splitOnP (fun z => z = ((0 : ℝ), (0 : ℝ)))
          (build_path_with_capacity ((0 : ℝ), (0 : ℝ)) [((3 : ℝ), (0 : ℝ))] 1),
        (seg.length : ℤ) ≤ 1) ∧
      capacity_split_path ((0 : ℝ), (0 : ℝ)) [((3 : ℝ), (0 : ℝ))] 1 =
        build_path_with_capacity ((0 : ℝ), (0 : ℝ)) [((3 : ℝ), (0 : ℝ))] 1) :=
  ⟨le_rfl, C3_route_capacity_invariant ((0 : ℝ), (0 : ℝ)) [((3 : ℝ), (0 : ℝ))] 1
    le_rfl⟩

theorem nn_path_count (p start : Point) (ts : List Point) (hp : p ≠ start) :
    (nearest_neighbor_path start ts).count p = ts.count p := by
  unfold nearest_neighbor_path
  split_ifs with h
  · simp [h, List.count_cons, beq_iff_eq, Ne.symm hp]
  · rw [List.count_cons, nnGoFuel_count p ts.length start ts le_rfl]
    simp [beq_iff_eq, Ne.symm hp]

/-- C4: every task is claimed exactly once.  For the dispatcher (on a guarded
run): the multiset of assigned positions equals the multiset of input tasks
and the working pool is empty at termination.  For the route constructor: for
every depot and capacity, every non-depot position occurs in the route exactly
as often as in the task set. -/
theorem C4_task_conservation (num_agents : ℕ) (speed_m_s : ℝ)
    (trash_locations : List Point) (hn : 0 < num_agents) (hs : 0 < speed_m_s) :
    (∀ p : Point,
      (simLoop speed_m_s (initState num_agents trash_locations)).assigned.count p =
        trash_locations.count p) ∧
    (simLoop speed_m_s (initState num_agents trash_locations)).remaining = [] ∧
    (∀ (bin_pos : Point) (capacity : ℤ) (p : Point), p ≠ bin_pos →
      (build_path_with_capacity bin_pos trash_locations capacity).count p =
        trash_locations.count p) := by
  refine ⟨?_, ?_, ?_⟩
  · intro p
    unfold simLoop
    rw [simLoopFuel_count speed_m_s p _ _ le_rfl]
    simp [initState]
  · unfold simLoop
    exact simLoopFuel_drains _ _ _ le_rfl
  · intro bin_pos capacity p hp
    unfold build_path_with_capacity
    by_cases h1 : capacity < 1
    · rw [if_pos h1]
      simp only
      split_ifs with h2
      · rw [List.count_append, nn_path_count p bin_pos trash_locations hp]
        simp [List.count_cons, beq_iff_eq, Ne.symm hp]
      · exact nn_path_count p bin_pos trash_locations hp
    · rw [if_neg h1, List.count_cons, buildLoopFuel_count p bin_pos capacity.toNat
        hp (by omega) trash_locations.length bin_pos trash_locations le_rfl]
      simp [beq_iff_eq, Ne.symm hp]

theorem C4_witness :
    0 < 1 ∧ (0 : ℝ) < 1 ∧
    ((∀ p : Point,
        (simLoop 1 (initState 1 [((3 : ℝ), (0 : ℝ))])).assigned.count p =
          [((3 : ℝ), (0 : ℝ))].count p) ∧
      (simLoop 1 (initState 1 [((3 : ℝ), (0 : ℝ))])).remaining = [] ∧
      (∀ (bin_pos : Point) (capacity : ℤ) (p : Point), p ≠ bin_pos →
        (build_path_with_capacity bin_pos [((3 : ℝ), (0 : ℝ))] capacity).count p =
          [((3 : ℝ), (0 : ℝ))].count p)) :=
  ⟨Nat.one_pos, one_pos,
    C4_task_conservation 1 1 [((3 : ℝ), (0 : ℝ))] Nat.one_pos one_pos⟩

/-- C5 counterexample: for depot `(5, 0)` and the single task `(3, 0)`, the
dispatcher's total distance is 3 (its agents start at the hard-coded `(0, 0)`
and never return to any depot), while the route produced by the constructor
with unlimited capacity is `(5,0), (3,0), (5,0)` of path length 4; the claimed
equality fails. -/
theorem C5_counterexample :
    (concurrency_simulation 1 1 [((3 : ℝ), (0 : ℝ))]).2 = 3 ∧
    path_length
      (build_path_with_capacity ((5 : ℝ), (0 : ℝ)) [((3 : ℝ), (0 : ℝ))] 0) = 4 ∧
    (3 : ℝ) ≠ 4 := by
  refine ⟨?_, ?_, by norm_num⟩
  · unfold concurrency_simulation concurrency_simulation_run
    rw [if_neg (by push_neg; exact ⟨one_ne_zero, by norm_num, by simp⟩)]
    simp only
    rw [run_single_task]
    norm_num [sumDist]
  · have dA : distance ((5 : ℝ), (0 : ℝ)) ((3 : ℝ), (0 : ℝ)) = 2 :=
      dist_eval (by norm_num) (by norm_num)
    have dB : distance ((3 : ℝ), (0 : ℝ)) ((5 : ℝ), (0 : ℝ)) = 2 :=
      dist_eval (by norm_num) (by norm_num)
    norm_num [build_path_with_capacity, nearest_neighbor_path, nnGoFuel,
      minByDist, py_min, py_min_go, path_length, dA, dB, Prod.ext_iff,
      List.erase_cons_head]

/-- The dispatcher's index-based closest-trash scan and the route
constructor's `min(remaining, key=distance)` pick the same task, and popping
that index equals removing the first occurrence of that value. -/
theorem closest_agree (pos : Point) (rem : List Point) (h : rem ≠ []) :
    ∃ j, ∃ hj : j < rem.length,
      closest_trash pos rem = some (j, distance pos (rem.get ⟨j, hj⟩)) ∧
      minByDist pos rem = some (rem.get ⟨j, hj⟩) ∧
      rem.eraseIdx j = rem.erase (rem.get ⟨j, hj⟩) := by
  obtain ⟨i, hi, heqC, hminC, hfirstC⟩ := closest_trash_spec pos rem h
  obtain ⟨i2, hi2, heqM, hminM, hfirstM⟩ := minByDist_spec pos rem h
  have hii : i2 = i :=
    first_min_unique (fun x => distance pos x) rem i2 i hi2 hi
      hminM hfirstM hminC hfirstC
  subst hii
  have herase := eraseIdx_eq_erase_first rem i2 hi (by
    intro k hk hki heq
    have := hfirstC k hk hki
    rw [heq] at this
    exact lt_irrefl _ this)
  exact ⟨i2, hi, heqC, heqM, herase⟩

theorem min_ttf_index_single (a : AgentRec) : min_ttf_index [a] = 0 := by
  simp [min_ttf_index, py_min, py_min_go, List.range_succ, List.range_zero]

/-- One dispatcher step with a single agent: the agent moves to the nearest
remaining task (the same task `min(remaining, key=distance)` picks), its
distance grows by that leg, and the clock advances by its time-to-free. -/
theorem simStep_single (speed_m_s : ℝ) (pos : Point) (ttf dist0 tp : ℝ)
    (asg : List Point) (adv : List ℝ) (rem : List Point) (hrem : rem ≠ []) :
    ∃ j, ∃ hj : j < rem.length,
      minByDist pos rem = some (rem.get ⟨j, hj⟩) ∧
      rem.eraseIdx j = rem.erase (rem.get ⟨j, hj⟩) ∧
      simStep speed_m_s
        { agents := [⟨pos, ttf, dist0⟩], remaining := rem,
          time_passed := tp, assigned := asg, advances := adv } =
        { agents := [⟨rem.get ⟨j, hj⟩,
            distance pos (rem.get ⟨j, hj⟩) / speed_m_s,
            dist0 + distance pos (rem.get ⟨j, hj⟩)⟩],
          remaining := rem.eraseIdx j,
          time_passed := tp + ttf,
          assigned := asg ++ [rem.get ⟨j, hj⟩],
          advances := adv ++ [ttf] } := by
  obtain ⟨j, hj, heqC, heqM, herase⟩ := closest_agree pos rem hrem
  refine ⟨j, hj, heqM, herase, ?_⟩
  cases rem with
  | nil => exact absurd rfl hrem
  | cons q qs =>
    unfold simStep
    simp only [min_ttf_index_single, getAgent, List.getD, List.map_cons,
      List.map_nil, List.set_cons_zero, List.get?_cons_zero, Option.getD_some,
      sub_self]
    rw [heqC]
    simp [SimState.mk.injEq, List.getElem?_eq_getElem hj]

theorem nnGoFuel_succ (n : ℕ) (cur : Point) (rem : List Point) (x : Point)
    (hx : minByDist cur rem = some x) :
    nnGoFuel (n + 1) cur rem = x :: nnGoFuel n x (rem.erase x) := by
  conv_lhs => rw [nnGoFuel]
  rw [hx]

/-- A single agent's accumulated distance over the dispatcher loop is exactly
the length of the nearest-neighbor walk over the remaining tasks from its
current position. -/
theorem single_agent_dist (speed_m_s : ℝ) :
    ∀ (fuel : ℕ) (rem : List Point) (pos : Point) (ttf dist0 tp : ℝ)
      (asg : List Point) (adv : List ℝ), rem.length ≤ fuel →
      sumDist (simLoopFuel speed_m_s fuel
        { agents := [⟨pos, ttf, dist0⟩], remaining := rem,
          time_passed := tp, assigned := asg, advances := adv }).agents =
        dist0 + path_length (pos :: nnGoFuel rem.length pos rem) := by
  intro fuel
  induction fuel with
  | zero =>
    intro rem pos ttf dist0 tp asg adv h
    have hnil : rem = [] := List.length_eq_zero.mp (Nat.le_zero.mp h)
    subst hnil
    simp [simLoopFuel, sumDist, nnGoFuel, path_length]
  | succ n ih =>
    intro rem pos ttf dist0 tp asg adv h
    by_cases hrem : rem = []
    · subst hrem
      rw [simLoopFuel_nil speed_m_s (n + 1) _ rfl]
      simp [sumDist, nnGoFuel, path_length]
    · rw [simLoopFuel_succ_ne speed_m_s n _ hrem]
      obtain ⟨j, hj, hminB, herase, heqS⟩ :=
        simStep_single speed_m_s pos ttf dist0 tp asg adv rem hrem
      simp only [heqS]
      have hlen : (rem.eraseIdx j).length ≤ n := by
        rw [List.length_eraseIdx]
        have hpos : 0 < rem.length := List.length_pos.mpr hrem
        simp [hj]
        omega
      rw [ih (rem.eraseIdx j) (rem.get ⟨j, hj⟩)
        (distance pos (rem.get ⟨j, hj⟩) / speed_m_s)
        (dist0 + distance pos (rem.get ⟨j, hj⟩)) (tp + ttf)
        (asg ++ [rem.get ⟨j, hj⟩]) (adv ++ [ttf]) hlen]
      have hlen2 : rem.length = (rem.eraseIdx j).length + 1 := by
        rw [List.length_eraseIdx]
        have hpos : 0 < rem.length := List.length_pos.mpr hrem
        simp [hj]
        omega
      conv_rhs => rw [hlen2, nnGoFuel_succ (rem.eraseIdx j).length pos rem
        (rem.get ⟨j, hj⟩) hminB, ← herase]
      simp only [path_length]
      ring

/-- C5 amended: with one agent the dispatcher's total distance equals the
path length of the bare nearest-neighbor walk (`nearest_neighbor_path`) from
the dispatcher's hard-coded start `(0, 0)` — the route constructor's appended
final depot-return leg, and any depot other than `(0, 0)`, are not part of the
dispatcher's distance. -/
theorem C5_single_agent_nn_distance (speed_m_s : ℝ) (ts : List Point)
    (hs : 0 < speed_m_s) :
    (concurrency_simulation 1 speed_m_s ts).2 =
      path_length (nearest_neighbor_path ((0 : ℝ), (0 : ℝ)) ts) := by
  by_cases hts : ts = []
  · subst hts
    unfold concurrency_simulation concurrency_simulation_run
    rw [if_pos (Or.inr (Or.inr rfl))]
    simp [nearest_neighbor_path, path_length]
  · unfold concurrency_simulation concurrency_simulation_run
    rw [if_neg (by push_neg; exact ⟨one_ne_zero, hs, hts⟩)]
    simp only
    unfold simLoop initState
    have hrep : List.replicate 1 (⟨((0 : ℝ), (0 : ℝ)), 0, 0⟩ : AgentRec) =
        [⟨((0 : ℝ), (0 : ℝ)), 0, 0⟩] := rfl
    rw [hrep]
    rw [single_agent_dist speed_m_s ts.length ts ((0 : ℝ), (0 : ℝ)) 0 0 0 [] []
      le_rfl]
    unfold nearest_neighbor_path
    rw [if_neg hts]
    ring

theorem C5_single_agent_nn_distance_witness :
    (0 : ℝ) < 1 ∧
    (concurrency_simulation 1 1 [((3 : ℝ), (0 : ℝ))]).2 =
      path_length (nearest_neighbor_path ((0 : ℝ), (0 : ℝ))
        [((3 : ℝ), (0 : ℝ))]) :=
  ⟨one_pos, C5_single_agent_nn_distance 1 [((3 : ℝ), (0 : ℝ))] one_pos⟩

end

end PureSkies
